import Mathlib

/-!
Verification of the `complex` crate (stainless-steel/complex): a pair type
`c32`/`c64` of two floating-point scalars with full complex arithmetic,
mixed scalar/complex operator overloads, accessors, mutable accessors and
conjugation.  The crate implements all operations once, generically in the
underlying real scalar type, via a macro instantiated at `f32` and `f64`;
we mirror that structure by a record of scalar operations `Scalar R` and
complex operations defined generically over it, plus a model `FP` of the
IEEE 754 scalar semantics the spec appeals to.
-/

/-- The operations the crate's `Number` trait requires of a scalar
(`Add`, `Sub`, `Mul`, `Div`, `Neg`, `PartialEq`); the macro body uses
exactly these on `$real`. -/
structure Scalar (R : Type) where
  add : R → R → R
  sub : R → R → R
  mul : R → R → R
  div : R → R → R
  neg : R → R
  eq : R → R → Bool

/-- `c32`/`c64`: a struct of two scalars of matching precision,
`(pub Real, pub Real)`; field `re` is component `.0`, `im` is `.1`. -/
structure Cplx (R : Type) where
  re : R
  im : R
deriving DecidableEq

namespace Cplx

/-- `Complex::new(re, im)`: stores the two scalars verbatim. -/
def new {R : Type} (re im : R) : Cplx R := ⟨re, im⟩

/-- `Complex::conj`: `Complex::new(self.re(), -self.im())`. -/
def conj {R : Type} (S : Scalar R) (x : Cplx R) : Cplx R :=
  new x.re (S.neg x.im)

/-- `impl Add for $complex`. -/
def add {R : Type} (S : Scalar R) (a b : Cplx R) : Cplx R :=
  new (S.add a.re b.re) (S.add a.im b.im)

/-- `impl Add<$real> for $complex`. -/
def addCR {R : Type} (S : Scalar R) (a : Cplx R) (r : R) : Cplx R :=
  new (S.add a.re r) a.im

/-- `impl Add<$complex> for $real`. -/
def addRC {R : Type} (S : Scalar R) (r : R) (b : Cplx R) : Cplx R :=
  new (S.add r b.re) b.im

/-- `impl Div for $complex`: `let denominator = rhs.re()*rhs.re() +
rhs.im()*rhs.im()`, then componentwise scalar division by it. -/
def div {R : Type} (S : Scalar R) (a b : Cplx R) : Cplx R :=
  let denominator := S.add (S.mul b.re b.re) (S.mul b.im b.im)
  new (S.div (S.add (S.mul a.re b.re) (S.mul a.im b.im)) denominator)
      (S.div (S.sub (S.mul a.im b.re) (S.mul a.re b.im)) denominator)

/-- `impl Div<$real> for $complex`. -/
def divCR {R : Type} (S : Scalar R) (a : Cplx R) (r : R) : Cplx R :=
  new (S.div a.re r) (S.div a.im r)

/-- `impl Div<$complex> for $real`: `Complex::new((self * rhs.re()) /
denominator, (-self * rhs.im()) / denominator)`. -/
def divRC {R : Type} (S : Scalar R) (r : R) (b : Cplx R) : Cplx R :=
  let denominator := S.add (S.mul b.re b.re) (S.mul b.im b.im)
  new (S.div (S.mul r b.re) denominator)
      (S.div (S.mul (S.neg r) b.im) denominator)

/-- `impl Mul for $complex`. -/
def mul {R : Type} (S : Scalar R) (a b : Cplx R) : Cplx R :=
  new (S.sub (S.mul a.re b.re) (S.mul a.im b.im))
      (S.add (S.mul a.im b.re) (S.mul a.re b.im))

/-- `impl Mul<$real> for $complex`. -/
def mulCR {R : Type} (S : Scalar R) (a : Cplx R) (r : R) : Cplx R :=
  new (S.mul a.re r) (S.mul a.im r)

/-- `impl Mul<$complex> for $real`. -/
def mulRC {R : Type} (S : Scalar R) (r : R) (b : Cplx R) : Cplx R :=
  new (S.mul r b.re) (S.mul r b.im)

/-- `impl Neg for $complex`. -/
def neg {R : Type} (S : Scalar R) (x : Cplx R) : Cplx R :=
  new (S.neg x.re) (S.neg x.im)

/-- `impl Sub for $complex`. -/
def sub {R : Type} (S : Scalar R) (a b : Cplx R) : Cplx R :=
  new (S.sub a.re b.re) (S.sub a.im b.im)

/-- `impl Sub<$real> for $complex`. -/
def subCR {R : Type} (S : Scalar R) (a : Cplx R) (r : R) : Cplx R :=
  new (S.sub a.re r) a.im

/-- `impl Sub<$complex> for $real`: `Complex::new(self - rhs.re(),
-rhs.im())`. -/
def subRC {R : Type} (S : Scalar R) (r : R) (b : Cplx R) : Cplx R :=
  new (S.sub r b.re) (S.neg b.im)

/-- The `#[derive(PartialEq)]` equality on `c32`/`c64`: componentwise
scalar equality, conjoined. -/
def ceq {R : Type} (S : Scalar R) (a b : Cplx R) : Bool :=
  S.eq a.re b.re && S.eq a.im b.im

/-- The effect of `*x.re_mut() = v`: overwrite component `.0` in place,
leaving `.1` untouched. -/
def setRe {R : Type} (x : Cplx R) (v : R) : Cplx R := ⟨v, x.im⟩

/-- The effect of `*x.im_mut() = v`: overwrite component `.1` in place,
leaving `.0` untouched. -/
def setIm {R : Type} (x : Cplx R) (v : R) : Cplx R := ⟨x.re, v⟩

end Cplx

/-- Binary logarithm with explicit fuel (structural recursion, so that the
kernel can evaluate it on large literals): `log2fuel f n` is `⌊log₂ n⌋`
whenever `f ≥ ⌊log₂ n⌋` and `n ≥ 1`. -/
def log2fuel : ℕ → ℕ → ℕ
  | 0, _ => 0
  | f + 1, n => if n ≤ 1 then 0 else log2fuel f (n / 2) + 1

/-- Addition of rationals by the cross-multiplication formula.
(Arithmetic on `ℚ` is routed through `mkRat` so that every operation in
the model evaluates by kernel reduction; `qadd_eq` identifies it with the
field addition of `ℚ`.) -/
def qadd (a b : ℚ) : ℚ := mkRat (a.num * b.den + b.num * a.den) (a.den * b.den)

/-- Multiplication of rationals, routed through `mkRat`;
`qmul_eq` identifies it with the field multiplication of `ℚ`. -/
def qmul (a b : ℚ) : ℚ := mkRat (a.num * b.num) (a.den * b.den)

/-- Subtraction of rationals; `qsub_eq` identifies it with the field
subtraction of `ℚ`. -/
def qsub (a b : ℚ) : ℚ := qadd a (-b)

/-- Division of rationals, routed through `Rat.divInt`; `qdiv_eq`
identifies it with the field division of `ℚ` (on a zero divisor both
yield `0`, a value the model never consults). -/
def qdiv (a b : ℚ) : ℚ := Rat.divInt (a.num * b.den) (b.num * a.den)

/-- `2 ^ s` as a rational, for an arbitrary integer exponent `s`. -/
def pow2 (s : ℤ) : ℚ :=
  if 0 ≤ s then mkRat ((2 ^ s.toNat : ℕ) : ℤ) 1 else mkRat 1 (2 ^ (-s).toNat)

/-- `⌊log₂ q⌋` for a positive rational `q = n / d`, computed from the
binary sizes of numerator and denominator. -/
def qlog2 (q : ℚ) : ℤ :=
  let n := q.num.toNat
  let d := q.den
  let l1 := log2fuel n n
  let l2 := log2fuel d d
  if d * 2 ^ (l1 - l2) ≤ n * 2 ^ (l2 - l1) then (l1 : ℤ) - l2
  else (l1 : ℤ) - l2 - 1

/-- Modelled from the spec: the spec stipulates that all scalar arithmetic
is "standard IEEE 754 arithmetic for the chosen width", which is not part
of this crate's source (it lives in the hardware floating-point unit).
`roundPos p x` rounds a positive rational `x` to `p` significant binary
digits, round half to even, with unbounded exponent range (overflow and
subnormal underflow do not occur at the values any claim evaluates). -/
def roundPos (p : ℕ) (x : ℚ) : ℚ :=
  let s : ℤ := qlog2 x - (p - 1 : ℕ)
  let m : ℚ := qmul x (pow2 (-s))
  let fl : ℤ := m.num.fdiv m.den
  let fr : ℚ := qsub m (mkRat fl 1)
  let r : ℤ :=
    if fr < mkRat 1 2 then fl
    else if mkRat 1 2 < fr then fl + 1
    else if fl % 2 = 0 then fl else fl + 1
  qmul (mkRat r 1) (pow2 s)

/-- Modelled from the spec: round-to-nearest-even at precision `p` for an
arbitrary rational, extending `roundPos` by sign symmetry (IEEE 754
rounding is symmetric about zero in round-to-nearest-even). -/
def roundQ (p : ℕ) (q : ℚ) : ℚ :=
  if q.num < 0 then -roundPos p (-q)
  else if q.num = 0 then 0
  else roundPos p q

/-- Modelled from the spec: the value space of an IEEE 754 binary
floating-point scalar — finite values (as exact rationals; the two IEEE
zeros are identified), the two infinities, and NaN.  The crate's spec
appeals to exactly these: "yields ±infinity or NaN per IEEE 754". -/
inductive FP where
  | finite (val : ℚ)
  | posInf
  | negInf
  | nan
deriving DecidableEq

/-- Whether an `FP` value is finite (neither an infinity nor NaN). -/
def FP.isFinite : FP → Bool
  | .finite _ => true
  | _ => false

/-- Modelled from the spec: IEEE 754 negation (exact sign flip). -/
def fneg : FP → FP
  | .finite q => .finite (-q)
  | .posInf => .negInf
  | .negInf => .posInf
  | .nan => .nan

/-- Modelled from the spec: IEEE 754 addition at precision `p`; NaN is
absorbing, opposite infinities give NaN, finite sums are rounded. -/
def fadd (p : ℕ) : FP → FP → FP
  | .nan, _ => .nan
  | _, .nan => .nan
  | .posInf, .negInf => .nan
  | .negInf, .posInf => .nan
  | .posInf, _ => .posInf
  | .negInf, _ => .negInf
  | .finite _, .posInf => .posInf
  | .finite _, .negInf => .negInf
  | .finite a, .finite b => .finite (roundQ p (qadd a b))

/-- Modelled from the spec: IEEE 754 subtraction, which coincides exactly
with addition of the negated second operand. -/
def fsub (p : ℕ) (x y : FP) : FP := fadd p x (fneg y)

/-- Modelled from the spec: IEEE 754 multiplication at precision `p`;
NaN is absorbing, infinity times zero gives NaN, otherwise infinities
combine signs, finite products are rounded. -/
def fmul (p : ℕ) : FP → FP → FP
  | .nan, _ => .nan
  | _, .nan => .nan
  | .finite a, .finite b => .finite (roundQ p (qmul a b))
  | .posInf, .posInf => .posInf
  | .posInf, .negInf => .negInf
  | .negInf, .posInf => .negInf
  | .negInf, .negInf => .posInf
  | .posInf, .finite b => if b = 0 then .nan else if 0 < b then .posInf else .negInf
  | .negInf, .finite b => if b = 0 then .nan else if 0 < b then .negInf else .posInf
  | .finite a, .posInf => if a = 0 then .nan else if 0 < a then .posInf else .negInf
  | .finite a, .negInf => if a = 0 then .nan else if 0 < a then .negInf else .posInf

/-- Modelled from the spec: IEEE 754 division at precision `p`; NaN is
absorbing, infinity over infinity and zero over zero give NaN, a nonzero
finite value over zero gives a signed infinity (the spec: division by a
zero denominator "yields ±infinity or NaN per IEEE 754; not a raised
error"), finite quotients are rounded. -/
def fdiv (p : ℕ) : FP → FP → FP
  | .nan, _ => .nan
  | _, .nan => .nan
  | .posInf, .posInf => .nan
  | .posInf, .negInf => .nan
  | .negInf, .posInf => .nan
  | .negInf, .negInf => .nan
  | .posInf, .finite b => if 0 ≤ b then .posInf else .negInf
  | .negInf, .finite b => if 0 ≤ b then .negInf else .posInf
  | .finite _, .posInf => .finite 0
  | .finite _, .negInf => .finite 0
  | .finite a, .finite b =>
      if b = 0 then
        if a = 0 then .nan else if 0 < a then .posInf else .negInf
      else .finite (roundQ p (qdiv a b))

/-- Modelled from the spec: IEEE 754 equality — NaN is unequal to
everything (itself included), infinities compare by sign, finite values
compare exactly (no epsilon tolerance; the identified zeros make
`+0 == -0` hold automatically). -/
def feq : FP → FP → Bool
  | .nan, _ => false
  | _, .nan => false
  | .posInf, .posInf => true
  | .negInf, .negInf => true
  | .finite a, .finite b => decide (a = b)
  | _, _ => false

/-- The scalar-operation record of an IEEE 754 binary float of precision
`p`: `p = 24` models `f32`, `p = 53` models `f64`. -/
def fpScalar (p : ℕ) : Scalar FP :=
  ⟨fadd p, fsub p, fmul p, fdiv p, fneg, feq⟩

/-- The exact-arithmetic scalar: rational field operations with no
rounding, Boolean equality.  (Division by zero is the junk value `0`.) -/
def exactQ : Scalar ℚ :=
  ⟨fun a b => a + b, fun a b => a - b, fun a b => a * b,
   fun a b => a / b, fun a => -a, fun a b => decide (a = b)⟩

/-- Whether an `FP` value is representable at precision `p`: a finite
value must be a fixed point of rounding; infinities and NaN are
representable at every precision. -/
def FP.wf (p : ℕ) : FP → Bool
  | .finite q => decide (roundQ p q = q)
  | _ => true

theorem qadd_eq (a b : ℚ) : qadd a b = a + b := by
  rw [qadd, Rat.mkRat_eq_divInt, Rat.divInt_eq_div]
  have ha : (a.den : ℚ) ≠ 0 := Nat.cast_ne_zero.mpr a.den_nz
  have hb : (b.den : ℚ) ≠ 0 := Nat.cast_ne_zero.mpr b.den_nz
  conv_rhs => rw [← Rat.num_div_den a, ← Rat.num_div_den b]
  push_cast
  field_simp

theorem qmul_eq (a b : ℚ) : qmul a b = a * b := by
  rw [qmul, Rat.mkRat_eq_divInt, Rat.divInt_eq_div]
  conv_rhs => rw [← Rat.num_div_den a, ← Rat.num_div_den b]
  push_cast
  rw [div_mul_div_comm]

theorem qsub_eq (a b : ℚ) : qsub a b = a - b := by
  rw [qsub, qadd_eq]
  ring

theorem qdiv_eq (a b : ℚ) : qdiv a b = a / b := by
  rcases eq_or_ne b 0 with hb | hb
  · subst hb
    rw [qdiv]
    norm_num
  · have hbn : (b.num : ℚ) ≠ 0 := Int.cast_ne_zero.mpr (Rat.num_ne_zero.mpr hb)
    have ha : (a.den : ℚ) ≠ 0 := Nat.cast_ne_zero.mpr a.den_nz
    have hbd : (b.den : ℚ) ≠ 0 := Nat.cast_ne_zero.mpr b.den_nz
    rw [qdiv, Rat.divInt_eq_div]
    conv_rhs => rw [← Rat.num_div_den a, ← Rat.num_div_den b]
    push_cast
    field_simp
    exact Or.inl (mul_comm _ _)

theorem roundQ_neg (p : ℕ) (q : ℚ) : roundQ p (-q) = -roundQ p q := by
  rw [roundQ, roundQ, Rat.neg_num, neg_neg]
  rcases lt_trichotomy q.num 0 with h | h | h
  · rw [if_neg (by omega), if_neg (by omega), if_pos h, neg_neg]
  · rw [if_neg (by omega), if_pos (by omega), if_neg (by omega), if_pos h, neg_zero]
  · rw [if_pos (by omega), if_neg (by omega), if_neg (by omega)]

theorem fneg_fneg (v : FP) : fneg (fneg v) = v := by
  cases v <;> simp [fneg]

theorem feq_refl (v : FP) (h : v ≠ .nan) : feq v v = true := by
  cases v <;> simp [feq] at h ⊢

theorem fdiv_zero_not_finite (p : ℕ) (x : FP) : (fdiv p x (.finite 0)).isFinite = false := by
  cases x with
  | finite a =>
      rw [fdiv, if_pos rfl]
      split_ifs <;> rfl
  | posInf => rw [fdiv, if_pos le_rfl]; rfl
  | negInf => rw [fdiv, if_pos le_rfl]; rfl
  | nan => rfl

theorem fmul_neg_one (p : ℕ) (v : FP) (hw : FP.wf p v = true) (hn : v ≠ .nan) :
    feq (fneg v) (fmul p v (.finite (-1))) = true := by
  cases v with
  | finite q =>
      have hq : roundQ p q = q := by simpa [FP.wf] using hw
      have : qmul q (-1) = -q := by rw [qmul_eq]; ring
      simp [fneg, fmul, feq, this, roundQ_neg, hq]
  | posInf => rfl
  | negInf => rfl
  | nan => exact absurd rfl hn

/-- C1: for complex operands of either precision, `a / b` is computed by
the scalar formula `((re1*re2 + im1*im2)/d, (im1*re2 - re1*im2)/d)` with
`d = re2*re2 + im2*im2`, entirely in the scalar's own (IEEE 754)
operations; and whenever the denominator `d` evaluates to zero the IEEE
model yields components that are infinities or NaN — no error, the
operation is total. -/
theorem div_formula_and_zero_denominator_total :
    (∀ (R : Type) (S : Scalar R) (a b : Cplx R),
      Cplx.div S a b =
        Cplx.new
          (S.div (S.add (S.mul a.re b.re) (S.mul a.im b.im))
            (S.add (S.mul b.re b.re) (S.mul b.im b.im)))
          (S.div (S.sub (S.mul a.im b.re) (S.mul a.re b.im))
            (S.add (S.mul b.re b.re) (S.mul b.im b.im)))) ∧
    (∀ (p : ℕ) (a b : Cplx FP),
      fadd p (fmul p b.re b.re) (fmul p b.im b.im) = .finite 0 →
      (Cplx.div (fpScalar p) a b).re.isFinite = false ∧
      (Cplx.div (fpScalar p) a b).im.isFinite = false) := by
  refine ⟨fun R S a b => rfl, fun p a b h => ⟨?_, ?_⟩⟩
  · show (fdiv p _ (fadd p (fmul p b.re b.re) (fmul p b.im b.im))).isFinite = false
    rw [h]
    exact fdiv_zero_not_finite p _
  · show (fdiv p _ (fadd p (fmul p b.re b.re) (fmul p b.im b.im))).isFinite = false
    rw [h]
    exact fdiv_zero_not_finite p _

/-- Witness for C1: dividing `3 - 1i` by `0 + 0i` at precision 53 hits a
zero denominator, and the resulting real component is not finite. -/
theorem div_zero_denominator_witness :
    fadd 53 (fmul 53 (FP.finite 0) (FP.finite 0)) (fmul 53 (FP.finite 0) (FP.finite 0))
      = FP.finite 0 ∧
    (Cplx.div (fpScalar 53) ⟨.finite 3, .finite (-1)⟩ ⟨.finite 0, .finite 0⟩).re.isFinite
      = false :=
  ⟨by decide,
   (div_formula_and_zero_denominator_total.2 53 ⟨.finite 3, .finite (-1)⟩
      ⟨.finite 0, .finite 0⟩ (by decide)).1⟩

/-- C2: `a * b` is the standard complex product
`(re1*re2 - im1*im2, im1*re2 + re1*im2)` in the scalar's own operations;
at precision 53 it reproduces the crate's test `(4+1i)*(2+3i) = 5+14i`. -/
theorem mul_complex_formula :
    (∀ (R : Type) (S : Scalar R) (a b : Cplx R),
      Cplx.mul S a b =
        Cplx.new (S.sub (S.mul a.re b.re) (S.mul a.im b.im))
          (S.add (S.mul a.im b.re) (S.mul a.re b.im))) ∧
    Cplx.mul (fpScalar 53) ⟨.finite 4, .finite 1⟩ ⟨.finite 2, .finite 3⟩
      = ⟨.finite 5, .finite 14⟩ :=
  ⟨fun _ _ _ _ => rfl, by decide⟩

set_option maxRecDepth 40000 in
/-- Counterexample to C3: in IEEE 754 binary64 arithmetic, with
`a = 2^53 - 1`, `b = 2^53 - 3` and `c = 1 + 0i` (denominator `1 ≠ 0`),
`(a+b)*(a-b)/c` gives real part `2^55 - 8` while `(a*a - b*b)/c` gives
`2^55`: rounding breaks the difference-of-squares identity. -/
theorem diff_of_squares_counterexample :
    fadd 53 (fmul 53 (FP.finite 1) (FP.finite 1)) (fmul 53 (FP.finite 0) (FP.finite 0))
      ≠ FP.finite 0 ∧
    Cplx.divRC (fpScalar 53)
        (fmul 53 (fadd 53 (.finite 9007199254740991) (.finite 9007199254740989))
          (fsub 53 (.finite 9007199254740991) (.finite 9007199254740989)))
        ⟨.finite 1, .finite 0⟩ ≠
      Cplx.divRC (fpScalar 53)
        (fsub 53 (fmul 53 (.finite 9007199254740991) (.finite 9007199254740991))
          (fmul 53 (.finite 9007199254740989) (.finite 9007199254740989)))
        ⟨.finite 1, .finite 0⟩ :=
  ⟨by decide, by decide⟩

/-- C3 (amended): the difference-of-squares identity
`(a+b)*(a-b)/c = (a*a - b*b)/c` holds for every complex `c` with nonzero
squared-magnitude denominator when the scalar arithmetic is exact
(no rounding); under rounded IEEE arithmetic it can fail. -/
theorem diff_of_squares_exact (a b : ℚ) (c : Cplx ℚ)
    (_h : exactQ.add (exactQ.mul c.re c.re) (exactQ.mul c.im c.im) ≠ 0) :
    Cplx.divRC exactQ (exactQ.mul (exactQ.add a b) (exactQ.sub a b)) c =
      Cplx.divRC exactQ (exactQ.sub (exactQ.mul a a) (exactQ.mul b b)) c := by
  have hsq : exactQ.mul (exactQ.add a b) (exactQ.sub a b)
      = exactQ.sub (exactQ.mul a a) (exactQ.mul b b) := by
    show (a + b) * (a - b) = a * a - b * b
    ring
  rw [Cplx.divRC, Cplx.divRC, hsq]

/-- Witness for the amended C3 at `a = 3`, `b = 1`, `c = 1 + 0i`. -/
theorem diff_of_squares_exact_witness :
    exactQ.add (exactQ.mul (1 : ℚ) 1) (exactQ.mul 0 0) ≠ 0 ∧
    Cplx.divRC exactQ (exactQ.mul (exactQ.add 3 1) (exactQ.sub 3 1)) ⟨1, 0⟩ =
      Cplx.divRC exactQ (exactQ.sub (exactQ.mul 3 3) (exactQ.mul 1 1)) ⟨1, 0⟩ :=
  ⟨by simp [exactQ], diff_of_squares_exact 3 1 ⟨1, 0⟩ (by simp [exactQ])⟩

/-- Counterexample to C4: at `x = 0 + NaN·i`, `conj(conj(x)) == x` is
false under the type's derived `PartialEq`, because the NaN imaginary
component compares unequal to itself. -/
theorem conj_involution_counterexample :
    Cplx.ceq (fpScalar 53)
      (Cplx.conj (fpScalar 53) (Cplx.conj (fpScalar 53) ⟨.finite 0, .nan⟩))
      ⟨.finite 0, .nan⟩ = false := by decide

/-- C4 (amended): `conj(x)` is `(re, -im)` for every complex value; double
conjugation reproduces `x` bit for bit; and `conj(conj(x)) == x` holds
under the type's `PartialEq` whenever neither component is NaN. -/
theorem conj_formula_and_involution :
    (∀ (R : Type) (S : Scalar R) (x : Cplx R),
      Cplx.conj S x = Cplx.new x.re (S.neg x.im)) ∧
    (∀ (p : ℕ) (x : Cplx FP),
      Cplx.conj (fpScalar p) (Cplx.conj (fpScalar p) x) = x) ∧
    (∀ (p : ℕ) (x : Cplx FP), x.re ≠ .nan → x.im ≠ .nan →
      Cplx.ceq (fpScalar p) (Cplx.conj (fpScalar p) (Cplx.conj (fpScalar p) x)) x
        = true) := by
  refine ⟨fun R S x => rfl, fun p x => ?_, fun p x h1 h2 => ?_⟩
  · show Cplx.new x.re (fneg (fneg x.im)) = x
    rw [fneg_fneg]
    rfl
  · show (feq x.re x.re && feq (fneg (fneg x.im)) x.im) = true
    rw [fneg_fneg, feq_refl x.re h1, feq_refl x.im h2]
    rfl

/-- Witness for the amended C4 at the crate's own test value `42 + 69i`. -/
theorem conj_involution_witness :
    (FP.finite 42 ≠ FP.nan) ∧ (FP.finite 69 ≠ FP.nan) ∧
    Cplx.ceq (fpScalar 53)
      (Cplx.conj (fpScalar 53) (Cplx.conj (fpScalar 53) ⟨.finite 42, .finite 69⟩))
      ⟨.finite 42, .finite 69⟩ = true :=
  ⟨by decide, by decide,
   conj_formula_and_involution.2.2 53 ⟨.finite 42, .finite 69⟩ (by decide) (by decide)⟩

/-- Counterexample to C5: at `x = NaN + 0i`, `-x == x * (-1)` is false
under the type's `PartialEq`, because the NaN real component of both
sides compares unequal. -/
theorem neg_mul_neg_one_counterexample :
    Cplx.ceq (fpScalar 53)
      (Cplx.neg (fpScalar 53) ⟨.nan, .finite 0⟩)
      (Cplx.mulCR (fpScalar 53) ⟨.nan, .finite 0⟩ (.finite (-1))) = false := by decide

/-- C5 (amended): for every complex value whose components are
floating-point values of precision `p` (fixed points of rounding) and not
NaN, `-x` compares equal to `x * (-1)` via the complex-times-real
overload, under the type's `PartialEq`. -/
theorem neg_eq_mul_neg_one (p : ℕ) (x : Cplx FP)
    (hw1 : FP.wf p x.re = true) (hw2 : FP.wf p x.im = true)
    (hn1 : x.re ≠ .nan) (hn2 : x.im ≠ .nan) :
    Cplx.ceq (fpScalar p) (Cplx.neg (fpScalar p) x)
      (Cplx.mulCR (fpScalar p) x (.finite (-1))) = true := by
  show (feq (fneg x.re) (fmul p x.re (.finite (-1)))
      && feq (fneg x.im) (fmul p x.im (.finite (-1)))) = true
  rw [fmul_neg_one p x.re hw1 hn1, fmul_neg_one p x.im hw2 hn2]
  rfl

/-- Witness for the amended C5 at the crate's own test value `42 + 69i`. -/
theorem neg_eq_mul_neg_one_witness :
    FP.wf 53 (FP.finite 42) = true ∧ FP.wf 53 (FP.finite 69) = true ∧
    (FP.finite 42 ≠ FP.nan) ∧ (FP.finite 69 ≠ FP.nan) ∧
    Cplx.ceq (fpScalar 53) (Cplx.neg (fpScalar 53) ⟨.finite 42, .finite 69⟩)
      (Cplx.mulCR (fpScalar 53) ⟨.finite 42, .finite 69⟩ (.finite (-1))) = true :=
  ⟨by decide, by decide, by decide, by decide,
   neg_eq_mul_neg_one 53 ⟨.finite 42, .finite 69⟩ (by decide) (by decide)
     (by decide) (by decide)⟩

/-- C6: `r - b` for a real scalar `r` and a complex `b` is
`(r - re1, -im1)` — the imaginary part's sign flips — reproducing the
crate's test `3 - (4+12i) = -1 - 12i`, and the operation is not
commutative: it differs from `(4+12i) - 3`. -/
theorem sub_real_complex_formula :
    (∀ (R : Type) (S : Scalar R) (r : R) (b : Cplx R),
      Cplx.subRC S r b = Cplx.new (S.sub r b.re) (S.neg b.im)) ∧
    Cplx.subRC (fpScalar 53) (.finite 3) ⟨.finite 4, .finite 12⟩
      = ⟨.finite (-1), .finite (-12)⟩ ∧
    Cplx.subRC (fpScalar 53) (.finite 3) ⟨.finite 4, .finite 12⟩
      ≠ Cplx.subCR (fpScalar 53) ⟨.finite 4, .finite 12⟩ (.finite 3) :=
  ⟨fun _ _ _ _ => rfl, by decide, by decide⟩

/-- C7: the derived `PartialEq` on complex values is the conjunction of
the scalar equalities of the components; in the IEEE model it holds iff
both components compare equal, NaN compares unequal to everything, and
finite components compare exactly (no epsilon tolerance). -/
theorem eq_componentwise_nan_sensitive :
    (∀ (R : Type) (S : Scalar R) (a b : Cplx R),
      Cplx.ceq S a b = (S.eq a.re b.re && S.eq a.im b.im)) ∧
    (∀ (a b : Cplx FP),
      Cplx.ceq (fpScalar 53) a b = true ↔
        (feq a.re b.re = true ∧ feq a.im b.im = true)) ∧
    (∀ v : FP, feq .nan v = false ∧ feq v .nan = false) ∧
    (∀ q q' : ℚ, feq (.finite q) (.finite q') = true ↔ q = q') := by
  refine ⟨fun R S a b => rfl, fun a b => ?_, fun v => ?_, fun q q' => ?_⟩
  · show (feq a.re b.re && feq a.im b.im) = true ↔ _
    rw [Bool.and_eq_true]
  · cases v <;> exact ⟨rfl, rfl⟩
  · show decide (q = q') = true ↔ q = q'
    exact decide_eq_true_iff

/-- Counterexample to C8: mutating the real component of `69 + NaN·i`
in place leaves the imaginary component untouched, yet that component
does not compare equal to its value before the mutation, because it is
NaN. -/
theorem mut_other_component_counterexample :
    (Cplx.setRe ⟨.finite 69, .nan⟩ (.finite 42)).im = FP.nan ∧
    feq (Cplx.setRe ⟨.finite 69, .nan⟩ (.finite 42)).im FP.nan = false := by
  exact ⟨rfl, rfl⟩

/-- C8 (amended): writing through `re_mut` (resp. `im_mut`) changes only
that component — the new component reads back exactly and the other is
bit-for-bit unchanged — and the untouched component compares equal to its
prior value whenever it is not NaN. -/
theorem mut_frame_preservation :
    (∀ (R : Type) (x : Cplx R) (v : R),
      (Cplx.setRe x v).im = x.im ∧ (Cplx.setRe x v).re = v ∧
      (Cplx.setIm x v).re = x.re ∧ (Cplx.setIm x v).im = v) ∧
    (∀ (x : Cplx FP) (v : FP), x.im ≠ .nan →
      feq (Cplx.setRe x v).im x.im = true) ∧
    (∀ (x : Cplx FP) (v : FP), x.re ≠ .nan →
      feq (Cplx.setIm x v).re x.re = true) :=
  ⟨fun _ _ _ => ⟨rfl, rfl, rfl, rfl⟩,
   fun x _ h => feq_refl x.im h,
   fun x _ h => feq_refl x.re h⟩

/-- Witness for the amended C8 at the crate's `re_mut` test value
`69 + 0i` overwritten with `42`. -/
theorem mut_frame_witness :
    (FP.finite 0 ≠ FP.nan) ∧
    feq (Cplx.setRe ⟨.finite 69, .finite 0⟩ (.finite 42)).im (FP.finite 0) = true :=
  ⟨by decide, mut_frame_preservation.2.1 ⟨.finite 69, .finite 0⟩ (.finite 42) (by decide)⟩

/-- C10: `Complex::new(re, im)` stores its two arguments verbatim —
`re()`/`im()` return exactly what was passed, with no normalization (the
statement is over an arbitrary component type, so the components cannot
be altered in any way) — and `conj` of the constructed value keeps the
real component untouched. -/
theorem new_stores_components_verbatim :
    ∀ (R : Type) (S : Scalar R) (re im : R),
      (Cplx.new re im).re = re ∧ (Cplx.new re im).im = im ∧
      (Cplx.conj S (Cplx.new re im)).re = re ∧
      (Cplx.conj S (Cplx.new re im)).im = S.neg im :=
  fun _ _ _ _ => ⟨rfl, rfl, rfl, rfl⟩
